import Mathlib

/-!
Verification of the feotweet incremental sync engine.

This file gives a shallow embedding, in Lean, of the parts of the
feotweet code base that the specification's testable properties talk
about: the `Tweet` data model, the watermark-bounded accumulation loops
of `syncHomeTimeline` / `syncUserTimeline`, `Tweet.sortByTimestamp`,
`Tweet.isPublic`, the paginated feed client (`Client.homeTimeline`,
`Client.userTimeline`, `Client.get` with its 429 handling), the
attachment collector's dedup (`Attachments.add`), and the text
transformation pipeline (`Tweet.getText`, `findQTShortURL`, and the
regex-based auto-linking of URLs and mentions).

JavaScript numbers standing for millisecond timestamps are modelled as
`Int`; JS strings as `String` (processed as `List Char` where character
level scanning is needed); `async` effects are dropped (all the modelled
code is sequential); thrown exceptions become `Except String`.
-/

/-- `UserJSON` from twitter.ts: the fields the modelled code reads.
`protected_` models the JSON field `protected` (a Lean keyword). -/
structure UserJSON where
  name : String
  screen_name : String
  protected_ : Bool
deriving DecidableEq

/-- `URLMeta` from twitter.ts (the `indices` field is unused by the
modelled code and omitted). -/
structure URLMeta where
  url : String
  display_url : String
  expanded_url : String
deriving DecidableEq

/-- One entry of `extended_entities.media` from twitter.ts: the fields
the modelled text pipeline reads. -/
structure MediaJSON where
  url : String
  media_url_https : String
deriving DecidableEq

/-- The `Tweet` wrapper over `TweetJSON` from feotweet.ts. The JSON's
`created_at` string is modelled by the parsed `timestamp` (the
constructor computes `Date.parse(json.created_at)`); `retweeted_status`
and `quoted_status` are the recursive nested tweets. -/
inductive Tweet where
  | mk (user : UserJSON) (id_str : String) (timestamp : Int) (full_text : String)
      (retweeted_status : Option Tweet) (quoted_status : Option Tweet)
      (urls : List URLMeta) (media : List MediaJSON)

def Tweet.user : Tweet → UserJSON
  | .mk u _ _ _ _ _ _ _ => u

def Tweet.id_str : Tweet → String
  | .mk _ i _ _ _ _ _ _ => i

def Tweet.timestamp : Tweet → Int
  | .mk _ _ ts _ _ _ _ _ => ts

def Tweet.full_text : Tweet → String
  | .mk _ _ _ ft _ _ _ _ => ft

def Tweet.retweeted_status : Tweet → Option Tweet
  | .mk _ _ _ _ rt _ _ _ => rt

def Tweet.quoted_status : Tweet → Option Tweet
  | .mk _ _ _ _ _ qt _ _ => qt

def Tweet.urls : Tweet → List URLMeta
  | .mk _ _ _ _ _ _ us _ => us

def Tweet.media : Tweet → List MediaJSON
  | .mk _ _ _ _ _ _ _ ms => ms

/-- `User.isPublic` from feotweet.ts: `!this.json.protected`. -/
def UserJSON.isPublic (u : UserJSON) : Bool := !u.protected_

/-- `Tweet.isPublic` from feotweet.ts: false when a quoted tweet is
present and not public, else false when a retweeted tweet is present and
not public, else the author's own publicness (written with the nested
`Option` matches lifted into the top-level patterns). -/
def Tweet.isPublic : Tweet → Bool
  | .mk user _ _ _ none none _ _ => user.isPublic
  | .mk user _ _ _ (some r) none _ _ =>
    if !r.isPublic then false else user.isPublic
  | .mk user _ _ _ none (some q) _ _ =>
    if !q.isPublic then false else user.isPublic
  | .mk user _ _ _ (some r) (some q) _ _ =>
    if !q.isPublic then false
    else if !r.isPublic then false
    else user.isPublic

/-- All tweets reachable from a tweet through nested quote/retweet
references, the tweet itself included (specification side: the "chain of
nested retweet/quote references"). -/
def Tweet.descendants : Tweet → List Tweet
  | .mk u i ts ft none none us ms => [Tweet.mk u i ts ft none none us ms]
  | .mk u i ts ft (some r) none us ms =>
    Tweet.mk u i ts ft (some r) none us ms :: r.descendants
  | .mk u i ts ft none (some q) us ms =>
    Tweet.mk u i ts ft none (some q) us ms :: q.descendants
  | .mk u i ts ft (some r) (some q) us ms =>
    Tweet.mk u i ts ft (some r) (some q) us ms :: (q.descendants ++ r.descendants)

/-- Structural size of the nested-tweet tree, used for induction. -/
def Tweet.size : Tweet → Nat
  | .mk _ _ _ _ none none _ _ => 1
  | .mk _ _ _ _ (some r) none _ _ => 1 + r.size
  | .mk _ _ _ _ none (some q) _ _ => 1 + q.size
  | .mk _ _ _ _ (some r) (some q) _ _ => 1 + r.size + q.size

/-- JS truthiness of a `number | null` value: `null` is falsy, and so is
the number `0`. Models the `lastTimestamp &&` guard of the sync loops. -/
def jsTruthy : Option Int → Bool
  | none => false
  | some v => !(v == 0)

/-- The tweet-accumulation loop of `syncHomeTimeline` (feotweet.ts):
skip non-public tweets, skip tweets whose author is in the (lowercased)
skip set, break the first time `lastTimestamp && tweet.timestamp <=
lastTimestamp`, else push, and break once `maxTweets` are collected.
`acc` is the `newTweets` array. -/
def collectHomeLoop (maxTweets : Nat) (lastTimestamp : Option Int)
    (skipUsers : List String) : List Tweet → List Tweet → List Tweet
  | acc, [] => acc
  | acc, tweet :: rest =>
    if !tweet.isPublic then
      collectHomeLoop maxTweets lastTimestamp skipUsers acc rest
    else if skipUsers.contains tweet.user.screen_name.toLower then
      collectHomeLoop maxTweets lastTimestamp skipUsers acc rest
    else if jsTruthy lastTimestamp && tweet.timestamp ≤ lastTimestamp.getD 0 then
      acc
    else if maxTweets ≤ (acc ++ [tweet]).length then
      acc ++ [tweet]
    else
      collectHomeLoop maxTweets lastTimestamp skipUsers (acc ++ [tweet]) rest

/-- `syncHomeTimeline`'s accumulation phase: run `collectHomeLoop` over
the feed client's (already lazily flattened) tweet sequence with an
empty `newTweets` array. -/
def syncHomeCollect (feed : List Tweet) (lastTimestamp : Option Int)
    (skipUsers : List String) (maxTweets : Nat) : List Tweet :=
  collectHomeLoop maxTweets lastTimestamp skipUsers [] feed

/-- The tweet-accumulation loop of `syncUserTimeline` (feotweet.ts):
same watermark break and cap, but no publicness or skip-set checks. -/
def collectUserLoop (maxTweets : Nat) (lastTimestamp : Option Int) :
    List Tweet → List Tweet → List Tweet
  | acc, [] => acc
  | acc, tweet :: rest =>
    if jsTruthy lastTimestamp && tweet.timestamp ≤ lastTimestamp.getD 0 then
      acc
    else if maxTweets ≤ (acc ++ [tweet]).length then
      acc ++ [tweet]
    else
      collectUserLoop maxTweets lastTimestamp (acc ++ [tweet]) rest

/-- `syncUserTimeline`'s accumulation phase. -/
def syncUserCollect (feed : List Tweet) (lastTimestamp : Option Int)
    (maxTweets : Nat) : List Tweet :=
  collectUserLoop maxTweets lastTimestamp [] feed

/-- `Tweet.sortByTimestamp` used as `newTweets.sort(Tweet.sortByTimestamp)`:
JS `Array.prototype.sort` with the numeric comparator
`a.timestamp - b.timestamp`, i.e. a stable sort that is ascending in
`timestamp`; modelled as a stable merge sort keyed on the timestamps. -/
def Tweet.sortByTimestamp (l : List Tweet) : List Tweet :=
  l.mergeSort (fun a b => a.timestamp ≤ b.timestamp)

/-- The list of tweets `syncHomeTimeline` hands to the publish loop:
the accumulated batch, sorted oldest first. -/
def syncHomePublished (feed : List Tweet) (lastTimestamp : Option Int)
    (skipUsers : List String) (maxTweets : Nat) : List Tweet :=
  Tweet.sortByTimestamp (syncHomeCollect feed lastTimestamp skipUsers maxTweets)

lemma isPublic_eq_all_aux : ∀ (n : Nat) (t : Tweet), t.size ≤ n →
    t.isPublic = t.descendants.all (fun s => s.user.isPublic) := by
  intro n
  induction n with
  | zero =>
    intro t h
    cases t with
    | mk u i ts ft rt qt us ms =>
      cases rt <;> cases qt <;> simp [Tweet.size] at h
  | succ n ih =>
    intro t h
    cases t with
    | mk u i ts ft rt qt us ms =>
      cases rt with
      | none =>
        cases qt with
        | none => simp [Tweet.isPublic, Tweet.descendants, Tweet.user]
        | some q =>
          have hqle : q.size ≤ n := by simp [Tweet.size] at h; omega
          simp only [Tweet.descendants, List.all_cons]
          rw [← ih q hqle]
          simp only [Tweet.isPublic, Tweet.user]
          cases q.isPublic <;> cases u.isPublic <;> rfl
      | some r =>
        cases qt with
        | none =>
          have hrle : r.size ≤ n := by simp [Tweet.size] at h; omega
          simp only [Tweet.descendants, List.all_cons]
          rw [← ih r hrle]
          simp only [Tweet.isPublic, Tweet.user]
          cases r.isPublic <;> cases u.isPublic <;> rfl
        | some q =>
          have hqle : q.size ≤ n := by simp [Tweet.size] at h; omega
          have hrle : r.size ≤ n := by simp [Tweet.size] at h; omega
          simp only [Tweet.descendants, List.all_cons, List.all_append]
          rw [← ih q hqle, ← ih r hrle]
          simp only [Tweet.isPublic, Tweet.user]
          cases q.isPublic <;> cases r.isPublic <;> cases u.isPublic <;> rfl

/-- C9: a tweet is public exactly when every author along every nested
retweet/quote chain (its own author included) is unrestricted; it is
non-public iff its own author is protected or some reachable nested
tweet's author is. -/
theorem isPublic_iff_all_descendants_unprotected (t : Tweet) :
    t.isPublic = true ↔ ∀ s ∈ t.descendants, s.user.protected_ = false := by
  rw [isPublic_eq_all_aux t.size t le_rfl]
  simp [List.all_eq_true, UserJSON.isPublic]

lemma collectHomeLoop_watermark_zero (maxTweets : Nat) (skipUsers : List String) :
    ∀ (feed acc : List Tweet),
      collectHomeLoop maxTweets (some 0) skipUsers acc feed =
        collectHomeLoop maxTweets none skipUsers acc feed := by
  intro feed
  induction feed with
  | nil => intro acc; rfl
  | cons t rest ih =>
    intro acc
    simp [collectHomeLoop, jsTruthy, ih]

lemma collectUserLoop_watermark_zero (maxTweets : Nat) :
    ∀ (feed acc : List Tweet),
      collectUserLoop maxTweets (some 0) acc feed =
        collectUserLoop maxTweets none acc feed := by
  intro feed
  induction feed with
  | nil => intro acc; rfl
  | cons t rest ih =>
    intro acc
    simp [collectUserLoop, jsTruthy, ih]

/-- C10: because the watermark guard `lastTimestamp && tweet.timestamp <=
lastTimestamp` is a JS truthiness test, a stored latest-post timestamp of
exactly 0 behaves identically to having no prior post at all, in both
`syncHomeTimeline` and `syncUserTimeline`: the accumulation never stops at
the watermark boundary and collects every eligible item up to the cap. -/
theorem watermark_zero_behaves_like_no_watermark (feed : List Tweet)
    (skipUsers : List String) (maxHome maxUser : Nat) :
    syncHomeCollect feed (some 0) skipUsers maxHome =
        syncHomeCollect feed none skipUsers maxHome ∧
      syncUserCollect feed (some 0) maxUser = syncUserCollect feed none maxUser :=
  ⟨collectHomeLoop_watermark_zero maxHome skipUsers feed [],
   collectUserLoop_watermark_zero maxUser feed []⟩

lemma collectHomeLoop_stops (maxTweets : Nat) (skipUsers : List String)
    (w : Int) (hw : w ≠ 0) :
    ∀ feed : List Tweet, (∀ t ∈ feed, t.timestamp ≤ w) →
      collectHomeLoop maxTweets (some w) skipUsers [] feed = [] := by
  intro feed
  induction feed with
  | nil => intro _; rfl
  | cons t rest ih =>
    intro hall
    have ht : t.timestamp ≤ w := hall t (List.mem_cons_self t rest)
    have hrest : ∀ t ∈ rest, t.timestamp ≤ w := fun s hs => hall s (List.mem_cons_of_mem t hs)
    simp [collectHomeLoop, jsTruthy, hw, ht, ih hrest]

/-- C1 (amended): re-running a sync with an unchanged, *nonzero* watermark
against unchanged upstream content publishes zero items: when every feed
tweet's timestamp is at or below the watermark, the accumulation loop
stops before collecting anything, so the publish loop runs zero times. -/
theorem syncHome_rerun_publishes_nothing (feed : List Tweet)
    (skipUsers : List String) (maxTweets : Nat) (w : Int) (hw : w ≠ 0)
    (hall : ∀ t ∈ feed, t.timestamp ≤ w) :
    syncHomePublished feed (some w) skipUsers maxTweets = [] := by
  unfold syncHomePublished syncHomeCollect
  rw [collectHomeLoop_stops maxTweets skipUsers w hw feed hall]
  simp [Tweet.sortByTimestamp]

/-- Concrete instance of C1's amended theorem: a single-tweet feed whose
tweet carries timestamp 5, against watermark 5. -/
theorem syncHome_rerun_publishes_nothing_witness :
    syncHomePublished [Tweet.mk ⟨"pat", "pat", false⟩ "1" 5 "hi" none none [] []]
      (some 5) [] 10 = [] :=
  syncHome_rerun_publishes_nothing _ _ _ 5 (by decide)
    (by
      intro t ht
      rw [List.mem_singleton] at ht
      subst ht
      decide)

/-- C1, as literally stated, fails at the watermark 0: a published post at
the epoch makes `getLatestTimestamp` return 0, which is falsy, so the loop
collects (and the publish loop re-publishes) the epoch tweet even though
its timestamp is at the watermark. -/
theorem syncHome_rerun_watermark_zero_counterexample :
    (∀ t ∈ [Tweet.mk ⟨"pat", "pat", false⟩ "1" 0 "hi" none none [] []],
        Tweet.timestamp t ≤ 0) ∧
      syncHomePublished [Tweet.mk ⟨"pat", "pat", false⟩ "1" 0 "hi" none none [] []]
          (some 0) [] 10 ≠ [] := by
  constructor
  · intro t ht
    rw [List.mem_singleton] at ht
    subst ht
    decide
  · intro hcontra
    have : syncHomePublished [Tweet.mk ⟨"pat", "pat", false⟩ "1" 0 "hi" none none [] []]
        (some 0) [] 10 =
        [Tweet.mk ⟨"pat", "pat", false⟩ "1" 0 "hi" none none [] []] := by
      unfold syncHomePublished syncHomeCollect Tweet.sortByTimestamp
      rw [show collectHomeLoop 10 (some 0) [] []
          [Tweet.mk ⟨"pat", "pat", false⟩ "1" 0 "hi" none none [] []] =
          [Tweet.mk ⟨"pat", "pat", false⟩ "1" 0 "hi" none none [] []] from rfl]
      simp
    rw [this] at hcontra
    exact List.cons_ne_nil _ _ hcontra

/-- C2: `Tweet.sortByTimestamp` produces a batch whose timestamps are
non-decreasing and which is a permutation of its input. -/
theorem sortByTimestamp_sorted_and_perm (l : List Tweet) :
    List.Pairwise (fun a b => a.timestamp ≤ b.timestamp) (Tweet.sortByTimestamp l) ∧
      (Tweet.sortByTimestamp l).Perm l := by
  constructor
  · have := @List.sorted_mergeSort Tweet
      (fun a b : Tweet => a.timestamp ≤ b.timestamp)
      (fun a b c hab hbc => by
        simp only [decide_eq_true_eq] at *
        exact le_trans hab hbc)
      (fun a b => by
        simpa using Int.le_total a.timestamp b.timestamp)
      l
    simpa [Tweet.sortByTimestamp, List.Sorted] using this
  · exact List.mergeSort_perm l _

/-- `Client.homeTimeline` from twitter.ts, unfolded for `fuel` page
fetches. `getFeedPage` stands for the page-fetch call (a pure function
of the `max_id` cursor here); the generator yields every page tweet
whose `id_str` is not the current cursor, then moves the cursor to the
last tweet of the page, and ends on an empty page. Each yielded tweet is
paired with the cursor that was active when its page was fetched, so the
cursor/item relation can be stated. -/
def Client.homeTimeline (getFeedPage : Option String → List Tweet) :
    Nat → Option String → List (Option String × Tweet)
  | 0, _ => []
  | fuel + 1, maxID =>
    match getFeedPage maxID with
    | [] => []
    | tweet :: rest =>
      ((tweet :: rest).filter (fun t => !(maxID == some t.id_str))).map
          (fun t => (maxID, t)) ++
        Client.homeTimeline getFeedPage fuel
          (some ((tweet :: rest).getLastD tweet).id_str)

/-- `Client.userTimeline` from twitter.ts, same pagination loop as
`Client.homeTimeline`; `getUserTimeline` stands for the page fetch with
the screen name and timeline options already applied. -/
def Client.userTimeline (getUserTimeline : Option String → List Tweet) :
    Nat → Option String → List (Option String × Tweet)
  | 0, _ => []
  | fuel + 1, maxID =>
    match getUserTimeline maxID with
    | [] => []
    | tweet :: rest =>
      ((tweet :: rest).filter (fun t => !(maxID == some t.id_str))).map
          (fun t => (maxID, t)) ++
        Client.userTimeline getUserTimeline fuel
          (some ((tweet :: rest).getLastD tweet).id_str)

lemma homeTimeline_ne_cursor (fetch : Option String → List Tweet) :
    ∀ (fuel : Nat) (c : Option String) (p : Option String × Tweet),
      p ∈ Client.homeTimeline fetch fuel c → p.1 ≠ some p.2.id_str := by
  intro fuel
  induction fuel with
  | zero => intro c p hp; simp [Client.homeTimeline] at hp
  | succ n ih =>
    intro c p hp
    rw [Client.homeTimeline] at hp
    cases hpage : fetch c with
    | nil => rw [hpage] at hp; simp at hp
    | cons tweet rest =>
      rw [hpage] at hp
      rcases List.mem_append.1 hp with hleft | hright
      · rcases List.mem_map.1 hleft with ⟨t, hmem, hpt⟩
        have hfilter := (List.mem_filter.1 hmem).2
        subst hpt
        simpa using hfilter
      · exact ih _ p hright

lemma userTimeline_ne_cursor (fetch : Option String → List Tweet) :
    ∀ (fuel : Nat) (c : Option String) (p : Option String × Tweet),
      p ∈ Client.userTimeline fetch fuel c → p.1 ≠ some p.2.id_str := by
  intro fuel
  induction fuel with
  | zero => intro c p hp; simp [Client.userTimeline] at hp
  | succ n ih =>
    intro c p hp
    rw [Client.userTimeline] at hp
    cases hpage : fetch c with
    | nil => rw [hpage] at hp; simp at hp
    | cons tweet rest =>
      rw [hpage] at hp
      rcases List.mem_append.1 hp with hleft | hright
      · rcases List.mem_map.1 hleft with ⟨t, hmem, hpt⟩
        have hfilter := (List.mem_filter.1 hmem).2
        subst hpt
        simpa using hfilter
      · exact ih _ p hright

/-- C3: neither timeline stream ever yields an item whose ID equals the
pagination cursor that was active when its page was fetched: the
boundary item (which upstream pagination repeats) is skipped. -/
theorem timeline_never_yields_cursor_item (fetchHome fetchUser : Option String → List Tweet)
    (fuel : Nat) (c : Option String) :
    (∀ p ∈ Client.homeTimeline fetchHome fuel c, p.1 ≠ some p.2.id_str) ∧
      ∀ p ∈ Client.userTimeline fetchUser fuel c, p.1 ≠ some p.2.id_str :=
  ⟨fun p hp => homeTimeline_ne_cursor fetchHome fuel c p hp,
   fun p hp => userTimeline_ne_cursor fetchUser fuel c p hp⟩

/-- Concrete instance of C3: one page of two tweets fetched twice, the
second fetch repeating the boundary tweet "2", which is not re-yielded. -/
theorem timeline_never_yields_cursor_item_witness :
    (some "2", Tweet.mk ⟨"n", "n", false⟩ "2" 1 "x" none none [] []) ∉
      Client.homeTimeline
        (fun _ => [Tweet.mk ⟨"n", "n", false⟩ "2" 1 "x" none none [] []]) 2 none :=
  fun hmem =>
    (timeline_never_yields_cursor_item
        (fun _ => [Tweet.mk ⟨"n", "n", false⟩ "2" 1 "x" none none [] []])
        (fun _ => []) 2 none).1 _ hmem rfl

/-- The fields of a twitter API HTTP `Response` that `Client.get` reads;
the two rate-limit headers are pre-parsed (`parseIntHeader` fails, with
the header's name, exactly when the field is `none`). -/
structure TwResponse where
  status : Nat
  ok : Bool
  x_rate_limit_remaining : Option Int
  x_rate_limit_reset : Option Int
deriving DecidableEq

/-- Result of `Client.get`: a returned response, a thrown error, or the
modelling artifact of running out of scripted responses mid-retry. -/
inductive GetOutcome where
  | ok (r : TwResponse)
  | thrown (msg : String)
  | noResponse
deriving DecidableEq

/-- `Client.get` from twitter.ts. `responses` scripts what the repeated
`fetch` of the one request returns on each iteration of the retry loop;
the first component of the result lists each `delay(waitMs)` performed,
and the wall clock `now` advances by exactly the waited time. On 429 the
rate-limit headers are read (throwing when absent), a positive remaining
quota throws, and a zero-or-less quota waits
`(reset * 1000 - now) + 5000` ms and retries; any other non-OK response
throws; an OK response is returned. -/
def Client.get (now : Int) : List TwResponse → List Int × GetOutcome
  | [] => ([], .noResponse)
  | r :: rest =>
    if r.status == 429 then
      match r.x_rate_limit_remaining with
      | none => ([], .thrown "Expected HTTP header x-rate-limit-remaining")
      | some remaining =>
        if 0 < remaining then
          ([], .thrown ("Got a rate limit warning, but we have " ++
            toString remaining ++ " calls remaining"))
        else
          match r.x_rate_limit_reset with
          | none => ([], .thrown "Expected HTTP header x-rate-limit-reset")
          | some reset =>
            ((reset * 1000 - now + 5000) ::
                (Client.get (now + (reset * 1000 - now + 5000)) rest).1,
              (Client.get (now + (reset * 1000 - now + 5000)) rest).2)
    else if !r.ok then ([], .thrown "Non-OK response from Twitter API")
    else ([], .ok r)

/-- C4: on a 429 with positive remaining quota `Client.get` throws with
no wait and no retry; on a 429 with zero remaining quota it waits
exactly `(resetEpochSeconds * 1000 - nowEpochMs) + 5000` ms and then
retries the same request (continuing with the next scripted response);
any other non-success response throws with no wait and no retry. -/
theorem get_429_rate_limit_behavior (now : Int) (r : TwResponse)
    (rest : List TwResponse) :
    (∀ rem : Int, r.status = 429 → r.x_rate_limit_remaining = some rem → 0 < rem →
      Client.get now (r :: rest) =
        ([], .thrown ("Got a rate limit warning, but we have " ++
          toString rem ++ " calls remaining"))) ∧
    (∀ reset : Int, r.status = 429 → r.x_rate_limit_remaining = some 0 →
      r.x_rate_limit_reset = some reset →
      Client.get now (r :: rest) =
        ((reset * 1000 - now + 5000) ::
            (Client.get (now + (reset * 1000 - now + 5000)) rest).1,
          (Client.get (now + (reset * 1000 - now + 5000)) rest).2)) ∧
    (r.status ≠ 429 → r.ok = false →
      Client.get now (r :: rest) = ([], .thrown "Non-OK response from Twitter API")) := by
  refine ⟨?_, ?_, ?_⟩
  · intro rem h429 hrem hpos
    simp [Client.get, h429, hrem, hpos]
  · intro reset h429 hrem hreset
    simp [Client.get, h429, hrem, hreset]
  · intro hnot429 hnotok
    simp [Client.get, hnot429, hnotok]

/-- Concrete instance of C4's zero-quota case: at `now = 0` with a reset
epoch of 10 s the client waits `10 * 1000 - 0 + 5000` ms, then the retry
returns the OK response. -/
theorem get_429_rate_limit_behavior_witness :
    Client.get 0 [⟨429, false, some 0, some 10⟩, ⟨200, true, none, none⟩] =
      ((10 * 1000 - 0 + 5000) ::
          (Client.get (0 + (10 * 1000 - 0 + 5000)) [⟨200, true, none, none⟩]).1,
        (Client.get (0 + (10 * 1000 - 0 + 5000)) [⟨200, true, none, none⟩]).2) :=
  (get_429_rate_limit_behavior 0 ⟨429, false, some 0, some 10⟩
    [⟨200, true, none, none⟩]).2.1 10 rfl rfl rfl

/-- One `Attachment` from attachments.ts: the derived file name (last
path segment of the source URL), the backing temp file's path (fresh per
constructed object, so it also stands in for JS object identity: two
distinct `Attachment` objects never share a `tmpFile`), the streamed
sha512 content hash (as bytes), and the byte size. -/
structure Attachment where
  name : String
  tmpFile : String
  hash : List Nat
  size : Nat
deriving DecidableEq

/-- `Attachment.markdownPath`: the store-relative reference path. -/
def Attachment.markdownPath (a : Attachment) : String := "files/" ++ a.name

/-- The scan over `this._attachments` inside `Attachments.add`:
`alreadyAdded` models the `a === attachment` early return (object
identity, i.e. equality including `tmpFile`), `dropDup` the equal-hash
branch that drops the new temp file, `push` falling through the loop. -/
inductive AddScan where
  | push
  | alreadyAdded
  | dropDup
deriving DecidableEq

def Attachments.addScan (att : Attachment) : List Attachment → Except String AddScan
  | [] => .ok .push
  | a :: rest =>
    if a == att then .ok .alreadyAdded
    else if !(a.name == att.name) then Attachments.addScan att rest
    else if a.hash == att.hash then .ok .dropDup
    else .error ("Error: Tried to add duplicate file name \"" ++ a.name ++
      "\" with different hashes.")

/-- `Attachments.add` from attachments.ts over the collected list
(`this._attachments`): returns the updated list together with whether
the candidate's temp resource was dropped as a duplicate; throws on a
name collision with a different content hash. -/
def Attachments.add (state : List Attachment) (att : Attachment) :
    Except String (List Attachment × Bool) :=
  match Attachments.addScan att state with
  | .error e => .error e
  | .ok .push => .ok (state ++ [att], false)
  | .ok .alreadyAdded => .ok (state, false)
  | .ok .dropDup => .ok (state, true)

/-- C5: within one Collecting scope, after a first attachment is stored,
adding a distinct attachment object with the same derived name and equal
hash stores nothing new, drops the duplicate's temp resource, and both
additions reference the same `files/<name>` path; a distinct object with
the same name but a different hash makes the scope fail. -/
theorem attachments_add_dedup_or_collision (a1 a2 : Attachment)
    (hname : a2.name = a1.name) (hdistinct : a2.tmpFile ≠ a1.tmpFile) :
    Attachments.add [] a1 = .ok ([a1], false) ∧
      (a2.hash = a1.hash →
        Attachments.add [a1] a2 = .ok ([a1], true) ∧
          a2.markdownPath = a1.markdownPath ∧
          a2.markdownPath = "files/" ++ a1.name) ∧
      (a2.hash ≠ a1.hash →
        Attachments.add [a1] a2 =
          .error ("Error: Tried to add duplicate file name \"" ++ a1.name ++
            "\" with different hashes.")) := by
  have hne : ¬ (a1 == a2) = true := by
    intro hcontra
    exact hdistinct (congrArg Attachment.tmpFile (eq_of_beq hcontra)).symm
  refine ⟨rfl, ?_, ?_⟩
  · intro hhash
    refine ⟨?_, ?_, ?_⟩
    · simp [Attachments.add, Attachments.addScan, hne, hname, hhash]
    · simp [Attachment.markdownPath, hname]
    · simp [Attachment.markdownPath, hname]
  · intro hhash
    have hhash' : ¬ a1.hash = a2.hash := fun h => hhash h.symm
    simp [Attachments.add, Attachments.addScan, hne, hname, hhash']

/-- Concrete instance of C5 at two photo downloads sharing the name
"pic.jpg": equal content dedups; a third object with different bytes
under the same name fails the scope. -/
theorem attachments_add_dedup_or_collision_witness :
    Attachments.add [] ⟨"pic.jpg", "/tmp/a", [1, 2], 2⟩ =
        .ok ([⟨"pic.jpg", "/tmp/a", [1, 2], 2⟩], false) ∧
      Attachments.add [⟨"pic.jpg", "/tmp/a", [1, 2], 2⟩] ⟨"pic.jpg", "/tmp/b", [1, 2], 2⟩ =
        .ok ([⟨"pic.jpg", "/tmp/a", [1, 2], 2⟩], true) ∧
      Attachments.add [⟨"pic.jpg", "/tmp/a", [1, 2], 2⟩] ⟨"pic.jpg", "/tmp/c", [3], 1⟩ =
        .error ("Error: Tried to add duplicate file name \"" ++ "pic.jpg" ++
          "\" with different hashes.") :=
  ⟨(attachments_add_dedup_or_collision ⟨"pic.jpg", "/tmp/a", [1, 2], 2⟩
      ⟨"pic.jpg", "/tmp/b", [1, 2], 2⟩ rfl (by decide)).1,
   ((attachments_add_dedup_or_collision ⟨"pic.jpg", "/tmp/a", [1, 2], 2⟩
      ⟨"pic.jpg", "/tmp/b", [1, 2], 2⟩ rfl (by decide)).2.1 rfl).1,
   (attachments_add_dedup_or_collision ⟨"pic.jpg", "/tmp/a", [1, 2], 2⟩
      ⟨"pic.jpg", "/tmp/c", [3], 1⟩ rfl (by decide)).2.2 (by decide)⟩

/-- Case-insensitively strip the literal `pat` from the front of `cs`
(the `/i` flag of `STATUS_PAT`), returning what follows. -/
def dropCI : List Char → List Char → Option (List Char)
  | [], cs => some cs
  | _ :: _, [] => none
  | p :: ps, c :: cs => if c.toLower = p.toLower then dropCI ps cs else none

/-- Longest run of decimal digits at the front of `cs`: the greedy
`(\d+)` capture. -/
def digitRun : List Char → List Char
  | [] => []
  | c :: cs => if c.isDigit then c :: digitRun cs else []

/-- Match `STATUS_PAT = /\/status\/(\d+)/i` anchored at the head of
`cs`, returning the captured digit group. -/
def matchStatusAt (cs : List Char) : Option String :=
  match dropCI "/status/".toList cs with
  | none => none
  | some rest =>
    match digitRun rest with
    | [] => none
    | d :: ds => some (String.mk (d :: ds))

/-- First (leftmost) match of `STATUS_PAT` in the character list. -/
def statusIDChars : List Char → Option String
  | [] => none
  | c :: rest =>
    match matchStatusAt (c :: rest) with
    | some statusID => some statusID
    | none => statusIDChars rest

/-- `Tweet.statusIDFromURL`: the capture of `STATUS_PAT.exec(url)`. -/
def Tweet.statusIDFromURL (url : String) : Option String :=
  statusIDChars url.toList

/-- `Tweet.url`: the canonical status URL rebuilt from the author's
screen name and the tweet's ID. -/
def Tweet.url (t : Tweet) : String :=
  "https://twitter.com/" ++ t.user.screen_name ++ "/status/" ++ t.id_str

/-- Strip the literal `pat` (case-sensitively) from the front of `cs`. -/
def dropLit : List Char → List Char → Option (List Char)
  | [], cs => some cs
  | _ :: _, [] => none
  | p :: ps, c :: cs => if c = p then dropLit ps cs else none

/-- Fuel-bounded scan of JS `String.replaceAll` with a plain-string
pattern: replace each non-overlapping occurrence, left to right. The
fuel is the text length, which suffices because every step consumes at
least one character of the text. -/
def replaceAllLoop (pat rep : List Char) : Nat → List Char → List Char
  | 0, text => text
  | _ + 1, [] => []
  | fuel + 1, c :: cs =>
    match dropLit pat (c :: cs) with
    | some rest => rep ++ replaceAllLoop pat rep fuel rest
    | none => c :: replaceAllLoop pat rep fuel cs

/-- JS `text.replaceAll(pat, rep)` for a plain-string pattern. (The
modelled call sites always pass nonempty short-URL patterns; an empty
pattern is returned unchanged here.) -/
def jsReplaceAll (text pat rep : String) : String :=
  if pat.toList.isEmpty then text
  else String.mk (replaceAllLoop pat.toList rep.toList text.toList.length text.toList)

/-- `Tweet.findQTShortURL` from feotweet.ts: correlate the quoted
tweet's canonical URL with the URL entities by the globally unique
status ID (never by plain string comparison); a quoted-tweet URL that is
not a status URL is a hard error. -/
def Tweet.findQTShortURL (t : Tweet) : Except String (Option String) :=
  match t.quoted_status with
  | none => .ok none
  | some qt =>
    match Tweet.statusIDFromURL qt.url with
    | none =>
      .error ("Tweet " ++ t.url ++ " has quote tweet URL (" ++ qt.url ++
        ") which is not a status URL!?")
    | some statusID =>
      match t.urls.find?
          (fun it => Tweet.statusIDFromURL it.expanded_url == some statusID) with
      | some meta => .ok (some meta.url)
      | none => .ok none

/-- The url-entity pass of `getText`: replace every entity's short code
with its expanded URL. -/
def expandURLEntities (t : Tweet) (text : String) : String :=
  t.urls.foldl (fun tx u => jsReplaceAll tx u.url u.expanded_url) text

/-- The media pass of `getText`: remove every media entity's short code. -/
def removeMediaShortURLs (t : Tweet) (text : String) : String :=
  t.media.foldl (fun tx m => jsReplaceAll tx m.url "") text

/-- `Tweet.getText` from feotweet.ts: remove the quote tweet's short URL
when one correlates (continuing without removal when none does, and
propagating `findQTShortURL`'s error), then expand URL entities and
remove media short codes. -/
def Tweet.getText (t : Tweet) : Except String String :=
  match t.quoted_status with
  | none => .ok (removeMediaShortURLs t (expandURLEntities t t.full_text))
  | some _ =>
    match t.findQTShortURL with
    | .error e => .error e
    | .ok none => .ok (removeMediaShortURLs t (expandURLEntities t t.full_text))
    | .ok (some shortURL) =>
      .ok (removeMediaShortURLs t (expandURLEntities t
        (jsReplaceAll t.full_text shortURL "")))

lemma find?_eq_some_of_unique {α : Type} (p : α → Bool) :
    ∀ (l : List α) (a : α), a ∈ l → p a = true → (∀ b ∈ l, p b = true → b = a) →
      l.find? p = some a := by
  intro l
  induction l with
  | nil => intro a ha _ _; simp at ha
  | cons x xs ih =>
    intro a ha hpa huniq
    by_cases hx : p x = true
    · have hxa : x = a := huniq x (List.mem_cons_self _ _) hx
      subst hxa
      simp [List.find?_cons_of_pos _ hx]
    · have hax : a ≠ x := fun h => hx (h ▸ hpa)
      have ha' : a ∈ xs := by
        rcases List.mem_cons.1 ha with h | h
        · exact absurd h hax
        · exact h
      rw [List.find?_cons_of_neg _ (by simpa using hx)]
      exact ih a ha' hpa (fun b hb hpb => huniq b (List.mem_cons_of_mem _ hb) hpb)

/-- C6: quote-tweet URL removal correlates by numeric status ID, not by
string equality. With a quoted tweet present: the entity whose expanded
URL carries the same `/status/<digits>` ID as the quoted tweet's
canonical URL — the two URL strings themselves need not be equal — has
its short code removed from the body text; when no entity correlates the
removal step is skipped and the text flows on unchanged (non-fatal); and
when the quoted tweet's own URL is not status-shaped the operation
throws. -/
theorem getText_quote_url_by_status_id (t qt : Tweet)
    (hqt : t.quoted_status = some qt) :
    (∀ (sid : String) (meta : URLMeta),
      Tweet.statusIDFromURL qt.url = some sid →
      meta ∈ t.urls →
      Tweet.statusIDFromURL meta.expanded_url = some sid →
      (∀ e ∈ t.urls, Tweet.statusIDFromURL e.expanded_url = some sid → e = meta) →
      t.findQTShortURL = .ok (some meta.url) ∧
        t.getText = .ok (removeMediaShortURLs t (expandURLEntities t
          (jsReplaceAll t.full_text meta.url "")))) ∧
    (∀ sid : String,
      Tweet.statusIDFromURL qt.url = some sid →
      (∀ e ∈ t.urls, ¬ Tweet.statusIDFromURL e.expanded_url = some sid) →
      t.findQTShortURL = .ok none ∧
        t.getText = .ok (removeMediaShortURLs t (expandURLEntities t t.full_text))) ∧
    (Tweet.statusIDFromURL qt.url = none →
      t.getText = .error ("Tweet " ++ t.url ++ " has quote tweet URL (" ++
        qt.url ++ ") which is not a status URL!?")) := by
  refine ⟨?_, ?_, ?_⟩
  · intro sid meta hsid hmem hpmeta huniq
    have hfind : t.urls.find?
        (fun it => Tweet.statusIDFromURL it.expanded_url == some sid) = some meta := by
      refine find?_eq_some_of_unique _ t.urls meta hmem ?_ ?_
      · simp [hpmeta]
      · intro b hb hpb
        exact huniq b hb (by simpa using hpb)
    have hshort : t.findQTShortURL = .ok (some meta.url) := by
      simp [Tweet.findQTShortURL, hqt, hsid, hfind]
    refine ⟨hshort, ?_⟩
    simp [Tweet.getText, hqt, hshort]
  · intro sid hsid hnone
    have hfind : t.urls.find?
        (fun it => Tweet.statusIDFromURL it.expanded_url == some sid) = none := by
      rw [List.find?_eq_none]
      intro e he
      simpa using hnone e he
    have hshort : t.findQTShortURL = .ok none := by
      simp [Tweet.findQTShortURL, hqt, hsid, hfind]
    refine ⟨hshort, ?_⟩
    simp [Tweet.getText, hqt, hshort]
  · intro hsid
    have hshort : t.findQTShortURL = .error ("Tweet " ++ t.url ++
        " has quote tweet URL (" ++ qt.url ++ ") which is not a status URL!?") := by
      simp [Tweet.findQTShortURL, hqt, hsid]
    simp [Tweet.getText, hqt, hshort]

/-- The quoted tweet of the C6 witness scenario: its author has since
renamed to `new_name`, so its canonical URL no longer equals the URL
recorded in the quoting tweet's entity. -/
def quotedInstC6 : Tweet :=
  Tweet.mk ⟨"New Name", "new_name", false⟩ "12345" 0 "quoted body" none none [] []

/-- The single URL entity of the C6 witness scenario: the recorded
expanded URL still uses the old screen name and carries a `?s=20` query
suffix, but shares status ID 12345. -/
def metaInstC6 : URLMeta :=
  ⟨"https://t.co/abc", "twitter.com/old_n...",
    "https://twitter.com/old_name/status/12345?s=20"⟩

/-- The quoting tweet of the C6 witness scenario. -/
def tweetInstC6 : Tweet :=
  Tweet.mk ⟨"Author", "author", false⟩ "99" 1 "body https://t.co/abc"
    none (some quotedInstC6) [metaInstC6] []

/-- Concrete instance of C6: the expanded URL differs from the quoted
tweet's canonical URL both by screen name and by a `?s=20` suffix, yet
status-ID correlation removes its short code from the body. -/
theorem getText_quote_url_by_status_id_witness :
    tweetInstC6.findQTShortURL = .ok (some "https://t.co/abc") ∧
      tweetInstC6.getText = .ok (removeMediaShortURLs tweetInstC6
        (expandURLEntities tweetInstC6
          (jsReplaceAll tweetInstC6.full_text "https://t.co/abc" ""))) :=
  (getText_quote_url_by_status_id tweetInstC6 quotedInstC6 rfl).1 "12345"
    metaInstC6 rfl (List.mem_cons_self _ _) rfl
    (by intro e he _; simpa [tweetInstC6, Tweet.urls] using he)

/-- One regex match as produced by `text.matchAll(pat)`: the match
offset (`match.index`), the matched text (`match[0]`) and the first
capture group (`match[1]`, empty for patterns without one). -/
structure MatchInfo where
  start : Nat
  matched : List Char
  capture : List Char
deriving DecidableEq

/-- `replaceMatch` from feotweet.ts: splice `newValue` over the range
`[match.index, match.index + match[0].length)` of `original`. -/
def replaceMatch (original : List Char) (m : MatchInfo)
    (newValue : List Char) : List Char :=
  original.take m.start ++ newValue ++ original.drop (m.start + m.matched.length)

/-- `replaceAll(text, pat, mapper)` from feotweet.ts: collect all the
pattern's matches first (`matchAll` is the matcher of the concrete
pattern), then apply `replaceMatch` from the rightmost match to the
leftmost (`[...matchAll].reverse()`). -/
def replaceAllPat (text : List Char) (matchAll : List Char → List MatchInfo)
    (mapper : MatchInfo → List Char) : List Char :=
  (matchAll text).reverse.foldl (fun tx m => replaceMatch tx m (mapper m)) text

/-- Generic left-to-right global regex scan: JS `matchAll` with the `g`
flag. At each position the anchored matcher `tryAt` sees the current
offset, the lookbehind state `st` (maintained by `step` over every
consumed character) and the remaining text; a (nonempty) match is
recorded and scanning resumes right after it, otherwise the scan
advances one character (as it also does for an empty match, per the JS
`lastIndex` rule). Fuel is the text length, which suffices because each
step consumes at least one character. -/
def scanAux {σ : Type}
    (tryAt : Nat → σ → List Char → Option (List Char × List Char))
    (step : σ → Char → σ) : Nat → List Char → Nat → σ → List MatchInfo
  | 0, _, _, _ => []
  | _ + 1, [], _, _ => []
  | fuel + 1, c :: cs, i, st =>
    match tryAt i st (c :: cs) with
    | some (matched, capture) =>
      if matched.isEmpty then
        scanAux tryAt step fuel cs (i + 1) (step st c)
      else
        ⟨i, matched, capture⟩ ::
          scanAux tryAt step fuel (List.drop matched.length (c :: cs))
            (i + matched.length) (matched.foldl step st)
    | none => scanAux tryAt step fuel cs (i + 1) (step st c)

/-- JS `\w`: ASCII letters, digits and underscore. -/
def isWordChar (c : Char) : Bool := c.isAlphanum || c == '_'

/-- JS `\s` restricted to its ASCII members. -/
def isJsSpace (c : Char) : Bool :=
  c == ' ' || c == '\t' || c == '\n' || c == '\r' || c == '\x0b' || c == '\x0c'

/-- The character class `[^)"\s]` of `URL_PAT`. -/
def isURLBodyChar (c : Char) : Bool := !(c == ')' || c == '"' || isJsSpace c)

/-- Anchored match of the scheme part `https?:\/\/` of `URL_PAT`: the
greedy `s?` tries `https://` first and backtracks to `http://`;
returns the consumed scheme and the remaining text. -/
def matchSchemeAt : List Char → Option (List Char × List Char)
  | 'h' :: 't' :: 't' :: 'p' :: 's' :: ':' :: '/' :: '/' :: rest =>
    some ("https://".toList, rest)
  | 'h' :: 't' :: 't' :: 'p' :: ':' :: '/' :: '/' :: rest =>
    some ("http://".toList, rest)
  | _ => none

/-- Anchored match of `URL_PAT = /\bhttps?:\/\/[^)"\s]+/g`: the word
boundary before the leading `h` holds iff the previous character is not
a word character (`prevWord` is the lookbehind state), then the scheme,
then a nonempty greedy run of URL body characters. -/
def matchURLAt (prevWord : Bool) (cs : List Char) : Option (List Char × List Char) :=
  if prevWord then none
  else
    match matchSchemeAt cs with
    | none => none
    | some (scheme, rest) =>
      match rest.takeWhile isURLBodyChar with
      | [] => none
      | b :: body => some (scheme ++ (b :: body), [])

/-- All matches of `URL_PAT` in `text` (`text.matchAll(URL_PAT)`). -/
def urlMatches (text : List Char) : List MatchInfo :=
  scanAux (fun _ st cs => matchURLAt st cs) (fun _ c => isWordChar c)
    text.length text 0 false

/-- The URL mapper of `getTextAsHTML`:
an anchor whose href and visible text are both the matched URL. -/
def urlAnchor (m : MatchInfo) : List Char :=
  "<a href=\"".toList ++ m.matched ++ "\">".toList ++ m.matched ++ "</a>".toList

/-- The URL-linking pass of `getTextAsHTML`. -/
def linkURLs (text : List Char) : List Char :=
  replaceAllPat text urlMatches urlAnchor

/-- The handle character class `[a-z0-9_]` of `MENTION_PAT` under the
`/i` flag. -/
def isHandleChar (c : Char) : Bool := c.isAlphanum || c == '_'

/-- Anchored match of `MENTION_PAT = /(?<=^[.]?|\s)@([a-z0-9_]{2,15})/gi`:
the lookbehind holds at offset 0, at offset 1 when the text starts with
a dot (`^[.]?`), or right after a whitespace character (`prev` is the
lookbehind state: the previous character); then `@` and a greedy run of
2 to 15 handle characters, which is the capture group. -/
def mentionLookbehind (i : Nat) (prev : Option Char) : Bool :=
  i == 0 || (i == 1 && prev == some '.') ||
    (match prev with | some p => isJsSpace p | none => false)

def matchMentionAt (i : Nat) (prev : Option Char) : List Char →
    Option (List Char × List Char)
  | '@' :: rest =>
    if !mentionLookbehind i prev then none
    else
      match (rest.takeWhile isHandleChar).take 15 with
      | [] => none
      | [_] => none
      | g :: g2 :: grabbed => some ('@' :: g :: g2 :: grabbed, g :: g2 :: grabbed)
  | _ => none

/-- All matches of `MENTION_PAT` in `text`. -/
def mentionMatches (text : List Char) : List MatchInfo :=
  scanAux matchMentionAt (fun _ c => some c) text.length text 0 none

/-- The mention mapper of `getTextAsHTML`: link text stays `@handle`,
href is the canonical author URL for the handle. -/
def mentionAnchor (m : MatchInfo) : List Char :=
  "<a href=\"https://twitter.com/".toList ++ m.capture ++ "\">@".toList ++
    m.capture ++ "</a>".toList

/-- The mention-linking pass of `getTextAsHTML`. -/
def linkMentions (text : List Char) : List Char :=
  replaceAllPat text mentionMatches mentionAnchor

/-- `Tweet.getTextAsHTML` from feotweet.ts: `getText`, then escape `<`,
then link URLs, then link mentions, then line breaks last. -/
def Tweet.getTextAsHTML (t : Tweet) : Except String String :=
  match t.getText with
  | .error e => .error e
  | .ok text0 =>
    .ok (jsReplaceAll
      (String.mk (linkMentions (linkURLs (jsReplaceAll text0 "<" "&lt;").toList)))
      "\n" "\n<br>")

lemma takeWhile_eq_take_length (p : Char → Bool) :
    ∀ l : List Char, l.takeWhile p = l.take (l.takeWhile p).length := by
  intro l
  induction l with
  | nil => simp
  | cons c cs ih =>
    by_cases h : p c
    · simpa [List.takeWhile_cons, h] using ih
    · simp [List.takeWhile_cons, h]

lemma length_takeWhile_le_self (p : Char → Bool) :
    ∀ l : List Char, (l.takeWhile p).length ≤ l.length := by
  intro l
  induction l with
  | nil => simp
  | cons c cs ih =>
    by_cases h : p c
    · simp [List.takeWhile_cons, h]
      omega
    · simp [List.takeWhile_cons, h]


lemma dropLit_eq_append :
    ∀ (p cs rest : List Char), dropLit p cs = some rest → cs = p ++ rest := by
  intro p
  induction p with
  | nil =>
    intro cs rest h
    simp only [dropLit, Option.some.injEq] at h
    simp [h]
  | cons x xs ih =>
    intro cs rest h
    cases cs with
    | nil => simp [dropLit] at h
    | cons c cs' =>
      rw [dropLit] at h
      by_cases hx : c = x
      · rw [if_pos hx] at h
        subst hx
        simpa using ih cs' rest h
      · rw [if_neg hx] at h
        exact absurd h (by simp)

lemma matchSchemeAt_append (cs scheme rest : List Char)
    (h : matchSchemeAt cs = some (scheme, rest)) : cs = scheme ++ rest := by
  rw [matchSchemeAt.eq_def] at h
  split at h
  · simp at h
    obtain ⟨h1, h2⟩ := h
    subst h1
    subst h2
    rfl
  · simp at h
    obtain ⟨h1, h2⟩ := h
    subst h1
    subst h2
    rfl
  · simp at h

/-- The URL matcher matches only a (nonempty) prefix of the remaining text. -/
lemma matchURLAt_take (st : Bool) (cs matched cap : List Char)
    (h : matchURLAt st cs = some (matched, cap)) :
    matched = cs.take matched.length ∧ matched ≠ [] := by
  rw [matchURLAt] at h
  by_cases hw : st
  · rw [if_pos hw] at h
    exact absurd h (by simp)
  rw [if_neg hw] at h
  cases hs : matchSchemeAt cs with
  | none => rw [hs] at h; exact absurd h (by simp)
  | some pr =>
    obtain ⟨scheme, rest⟩ := pr
    rw [hs] at h
    simp only at h
    cases htw : rest.takeWhile isURLBodyChar with
    | nil => rw [htw] at h; exact absurd h (by simp)
    | cons b body =>
      rw [htw] at h
      simp only [Option.some.injEq, Prod.mk.injEq] at h
      obtain ⟨hm, -⟩ := h
      have hcs := matchSchemeAt_append cs scheme rest hs
      have hbody := takeWhile_eq_take_length isURLBodyChar rest
      rw [htw] at hbody
      constructor
      · rw [← hm, hcs, List.length_append, List.take_append, ← hbody]
      · rw [← hm]
        have : scheme = "https://".toList ∨ scheme = "http://".toList := by
          rw [matchSchemeAt.eq_def] at hs
          split at hs
          · injection hs with h'
            exact Or.inl (congrArg Prod.fst h').symm
          · injection hs with h'
            exact Or.inr (congrArg Prod.fst h').symm
          · exact absurd hs (by simp)
        rcases this with h' | h' <;> simp [h']

/-- The mention matcher matches only a (nonempty) prefix of the
remaining text. -/
lemma matchMentionAt_take (i : Nat) (prev : Option Char) (cs matched cap : List Char)
    (h : matchMentionAt i prev cs = some (matched, cap)) :
    matched = cs.take matched.length ∧ matched ≠ [] := by
  rw [matchMentionAt.eq_def] at h
  split at h
  · next rest =>
    by_cases hlb : mentionLookbehind i prev
    · rw [hlb] at h
      simp only [Bool.not_true, Bool.false_eq_true, if_false] at h
      split at h
      · exact absurd h (by simp)
      · exact absurd h (by simp)
      · next g g2 grabbed heq =>
        injection h with h'
        have hm : '@' :: g :: g2 :: grabbed = matched := congrArg Prod.fst h'
        have hL := length_takeWhile_le_self isHandleChar rest
        have htw := takeWhile_eq_take_length isHandleChar rest
        have hG : g :: g2 :: grabbed =
            rest.take (min 15 (rest.takeWhile isHandleChar).length) := by
          rw [← heq]
          conv_lhs => rw [htw]
          rw [List.take_take]
        have hlen : (g :: g2 :: grabbed).length =
            min 15 (rest.takeWhile isHandleChar).length := by
          rw [hG, List.length_take]
          omega
        constructor
        · rw [← hm]
          show '@' :: g :: g2 :: grabbed =
            ('@' :: rest).take ('@' :: g :: g2 :: grabbed).length
          rw [List.length_cons, List.take_succ_cons]
          congr 1
          rw [hlen, ← hG]
        · rw [← hm]
          simp
    · simp [hlb] at h
  · exact absurd h (by simp)

/-- The matches `ms` are in left-to-right order, pairwise disjoint,
start no earlier than `i`, and end no later than `n`. -/
def ChainFrom (i n : Nat) : List MatchInfo → Prop
  | [] => True
  | m :: rest =>
    i ≤ m.start ∧ m.start + m.matched.length ≤ n ∧
      ChainFrom (m.start + m.matched.length) n rest

lemma ChainFrom.weaken : ∀ (ms : List MatchInfo) (i i' n n' : Nat), i' ≤ i → n ≤ n' →
    ChainFrom i n ms → ChainFrom i' n' ms := by
  intro ms
  induction ms with
  | nil => intro _ _ _ _ _ _ _; trivial
  | cons m rest ih =>
    intro i i' n n' hi hn h
    obtain ⟨h1, h2, h3⟩ := h
    exact ⟨le_trans hi h1, le_trans h2 hn,
      ih _ _ _ _ le_rfl hn h3⟩

lemma ChainFrom.append_last : ∀ (ms : List MatchInfo) (i n : Nat) (m : MatchInfo),
    ChainFrom i n (ms ++ [m]) →
      ChainFrom i m.start ms ∧ i ≤ m.start ∧ m.start + m.matched.length ≤ n := by
  intro ms
  induction ms with
  | nil =>
    intro i n m h
    obtain ⟨h1, h2, -⟩ := h
    exact ⟨trivial, h1, h2⟩
  | cons m0 rest ih =>
    intro i n m h
    obtain ⟨h1, h2, h3⟩ := h
    obtain ⟨hc, hle, hbound⟩ := ih _ _ m h3
    refine ⟨⟨h1, by omega, hc⟩, by omega, hbound⟩

lemma scanAux_chain {σ : Type}
    (tryAt : Nat → σ → List Char → Option (List Char × List Char))
    (step : σ → Char → σ)
    (hpre : ∀ i st cs matched cap, tryAt i st cs = some (matched, cap) →
      matched = cs.take matched.length) :
    ∀ (fuel : Nat) (cs : List Char) (i : Nat) (st : σ),
      ChainFrom i (i + cs.length) (scanAux tryAt step fuel cs i st) := by
  intro fuel
  induction fuel with
  | zero => intro cs i st; rw [scanAux]; trivial
  | succ n ih =>
    intro cs i st
    cases cs with
    | nil => rw [scanAux]; trivial
    | cons c cs' =>
      cases htry : tryAt i st (c :: cs') with
      | none =>
        simp only [scanAux, htry]
        refine ChainFrom.weaken _ (i + 1) i (i + 1 + cs'.length) _ (by omega) ?_
          (ih cs' (i + 1) (step st c))
        simp only [List.length_cons]
        omega
      | some pr =>
        obtain ⟨matched, cap⟩ := pr
        by_cases hemp : matched.isEmpty
        · simp only [scanAux, htry, if_pos hemp]
          refine ChainFrom.weaken _ (i + 1) i (i + 1 + cs'.length) _ (by omega) ?_
            (ih cs' (i + 1) (step st c))
          simp only [List.length_cons]
          omega
        · simp only [scanAux, htry, if_neg hemp]
          have hm := hpre i st (c :: cs') matched cap htry
          have hlen : matched.length ≤ (c :: cs').length := by
            conv_lhs => rw [hm]
            rw [List.length_take]
            omega
          refine ⟨le_rfl, ?_, ?_⟩
          · show i + matched.length ≤ i + (c :: cs').length
            omega
          refine ChainFrom.weaken _ (i + matched.length) (i + matched.length)
            (i + matched.length + (List.drop matched.length (c :: cs')).length) _
            le_rfl ?_ (ih _ (i + matched.length) (matched.foldl step st))
          rw [List.length_drop]
          omega

/-- The simultaneous, left-to-right reading of applying all matches:
the unmatched segment before each match, then its replacement, with
every offset referring to the original text. -/
def segApply (mapper : MatchInfo → List Char) (text : List Char) :
    Nat → List MatchInfo → List Char
  | i, [] => text.drop i
  | i, m :: rest =>
    (text.drop i).take (m.start - i) ++ mapper m ++
      segApply mapper text (m.start + m.matched.length) rest

lemma segApply_replaceMatch (mapper : MatchInfo → List Char) (text : List Char)
    (m : MatchInfo) :
    ∀ (ms : List MatchInfo) (i : Nat),
      ChainFrom i text.length (ms ++ [m]) →
      segApply mapper (replaceMatch text m (mapper m)) i ms =
        segApply mapper text i (ms ++ [m]) := by
  intro ms
  induction ms with
  | nil =>
    intro i h
    obtain ⟨h1, h2, -⟩ := h
    have hstart : m.start ≤ text.length := by omega
    rw [segApply]
    rw [List.nil_append, segApply, segApply, replaceMatch]
    rw [List.append_assoc]
    rw [List.drop_append_of_le_length (by rw [List.length_take]; omega)]
    rw [List.drop_take]
    simp [List.append_assoc]
  | cons m0 ms' ih =>
    intro i h
    obtain ⟨h1, h2, h3⟩ := h
    have hlast := ChainFrom.append_last ms' _ _ m h3
    have hm0m : m0.start + m0.matched.length ≤ m.start := hlast.2.1
    have hstart : m.start ≤ text.length := by
      have := hlast.2.2
      omega
    rw [List.cons_append, segApply, segApply]
    rw [ih _ h3]
    have hseg : (replaceMatch text m (mapper m)).take m0.start = text.take m0.start := by
      rw [replaceMatch, List.append_assoc]
      rw [List.take_append_of_le_length (by rw [List.length_take]; omega)]
      rw [List.take_take, min_eq_left (by omega)]
    have hseg2 : ((replaceMatch text m (mapper m)).drop i).take (m0.start - i) =
        ((text.drop i).take (m0.start - i)) := by
      rw [← List.drop_take, ← List.drop_take, hseg]
    rw [hseg2]

lemma replaceAllMatches_eq_segApply (mapper : MatchInfo → List Char) :
    ∀ (ms : List MatchInfo) (text : List Char),
      ChainFrom 0 text.length ms →
      ms.reverse.foldl (fun tx m => replaceMatch tx m (mapper m)) text =
        segApply mapper text 0 ms := by
  intro ms
  induction ms using List.reverseRecOn with
  | nil => intro text _; simp [segApply]
  | append_singleton ms m ih =>
    intro text h
    rw [List.reverse_append, List.reverse_singleton, List.singleton_append,
      List.foldl_cons]
    have hlast := ChainFrom.append_last ms 0 text.length m h
    have hchain' : ChainFrom 0 (replaceMatch text m (mapper m)).length ms := by
      refine ChainFrom.weaken _ 0 0 m.start _ le_rfl ?_ hlast.1
      rw [replaceMatch]
      simp only [List.length_append, List.length_take, List.length_drop]
      have := hlast.2.2
      omega
    rw [ih _ hchain']
    exact segApply_replaceMatch mapper text m ms 0 h

lemma urlMatches_chain (text : List Char) :
    ChainFrom 0 text.length (urlMatches text) := by
  have := scanAux_chain (fun _ st cs => matchURLAt st cs) (fun _ c => isWordChar c)
    (fun i st cs matched cap h => (matchURLAt_take st cs matched cap h).1)
    text.length text 0 false
  simpa using this

/-- C7: URL auto-linking computes all (nonempty, non-overlapping,
leftmost-first) `URL_PAT` matches up front and applies the replacements
rightmost-to-leftmost, which equals the simultaneous left-to-right
segmented replacement over the original offsets (offsets are never
perturbed); each match is wrapped in an anchor whose href and visible
text are the matched URL; on the spec's example input each URL is linked
up to but excluding the trailing close-paren, leaving the surrounding
punctuation untouched. -/
theorem linkURLs_offsets_and_example :
    (∀ text : List Char,
      linkURLs text = segApply urlAnchor text 0 (urlMatches text)) ∧
      linkURLs ("Here is (https://example.com/foo and https://www.example.com/bar) the thing.").toList =
        ("Here is (<a href=\"https://example.com/foo\">https://example.com/foo</a> and <a href=\"https://www.example.com/bar\">https://www.example.com/bar</a>) the thing.").toList := by
  constructor
  · intro text
    exact replaceAllMatches_eq_segApply urlAnchor (urlMatches text) text
      (urlMatches_chain text)
  · rfl

lemma foldl_some_last : ∀ (l : List Char) (st : Option Char), l ≠ [] →
    l.foldl (fun _ x => some x) st = l[l.length - 1]? := by
  intro l
  induction l with
  | nil => intro st h; exact absurd rfl h
  | cons c cs ih =>
    intro st _
    cases cs with
    | nil => simp
    | cons c2 cs2 =>
      rw [List.foldl_cons, ih (some c) (by simp)]
      simp

lemma get_of_drop_cons (l : List Char) (i : Nat) (c : Char) (cs : List Char)
    (h : l.drop i = c :: cs) : l[i]? = some c := by
  have h0 := List.getElem?_drop l i 0
  rw [h] at h0
  simpa using h0.symm

lemma drop_succ_of_drop_cons (l : List Char) (i : Nat) (c : Char) (cs : List Char)
    (h : l.drop i = c :: cs) : l.drop (i + 1) = cs := by
  have h1 : l.drop (i + 1) = (l.drop i).drop 1 := by
    rw [List.drop_drop]
  rw [h1, h]
  simp

lemma matchMentionAt_requires_lookbehind (i : Nat) (prev : Option Char)
    (cs : List Char) (r : List Char × List Char)
    (h : matchMentionAt i prev cs = some r) :
    mentionLookbehind i prev = true := by
  rw [matchMentionAt.eq_def] at h
  split at h
  · by_cases hlb : mentionLookbehind i prev
    · exact hlb
    · simp [hlb] at h
  · exact absurd h (by simp)

lemma mentionScanAux_sound (text : List Char) :
    ∀ (fuel : Nat) (i : Nat) (st : Option Char) (m : MatchInfo),
      st = (if i = 0 then none else text[i - 1]?) →
      m ∈ scanAux matchMentionAt (fun _ c => some c) fuel (text.drop i) i st →
      mentionLookbehind m.start
        (if m.start = 0 then none else text[m.start - 1]?) = true := by
  intro fuel
  induction fuel with
  | zero =>
    intro i st m _ hmem
    rw [scanAux.eq_def] at hmem
    simp at hmem
  | succ n ih =>
    intro i st m hst hmem
    cases hcs : text.drop i with
    | nil =>
      rw [hcs] at hmem
      simp [scanAux] at hmem
    | cons c cs' =>
      rw [hcs] at hmem
      have hgetc : text[i]? = some c := get_of_drop_cons text i c cs' hcs
      have hdrop1 : text.drop (i + 1) = cs' := drop_succ_of_drop_cons text i c cs' hcs
      cases htry : matchMentionAt i st (c :: cs') with
      | none =>
        simp only [scanAux, htry] at hmem
        refine ih (i + 1) (some c) m ?_ ?_
        · simp [hgetc]
        · rw [hdrop1]
          exact hmem
      | some pr =>
        obtain ⟨matched, cap⟩ := pr
        by_cases hemp : matched.isEmpty
        · simp only [scanAux, htry, if_pos hemp] at hmem
          refine ih (i + 1) (some c) m ?_ ?_
          · simp [hgetc]
          · rw [hdrop1]
            exact hmem
        · simp only [scanAux, htry, if_neg hemp] at hmem
          rcases List.mem_cons.1 hmem with hhead | htail
          · subst hhead
            have hlb := matchMentionAt_requires_lookbehind i st (c :: cs') _ htry
            rw [hst] at hlb
            simpa using hlb
          · have hmne : matched ≠ [] := by
              intro hnil
              rw [hnil] at hemp
              simp at hemp
            have hpre := (matchMentionAt_take i st (c :: cs') matched cap htry).1
            have hlen1 : 1 ≤ matched.length := by
              cases matched with
              | nil => exact absurd rfl hmne
              | cons _ _ => simp
            have hlenle : matched.length ≤ (c :: cs').length := by
              conv_lhs => rw [hpre]
              rw [List.length_take]
              omega
            have hst' : matched.foldl (fun _ x => some x) st =
                text[i + matched.length - 1]? := by
              rw [foldl_some_last matched st hmne]
              nth_rewrite 1 [hpre]
              rw [← hcs]
              rw [List.getElem?_take_of_lt (by omega)]
              rw [List.getElem?_drop]
              congr 1
              omega
            have hdropm : List.drop matched.length (c :: cs') =
                text.drop (i + matched.length) := by
              rw [← hcs, List.drop_drop]
            refine ih (i + matched.length)
              (matched.foldl (fun _ x => some x) st) m ?_ ?_
            · rw [hst']
              have hne0 : ¬ i + matched.length = 0 := by omega
              rw [if_neg hne0]
            · rw [← hdropm]
              exact htail

/-- C8: mention auto-linking obeys the positional lookbehind rule:
every `MENTION_PAT` match starts either at offset 0, at offset 1 behind
a leading dot at start-of-string, or right after a whitespace character;
on the spec's examples both `@foo` and `@bar` are linked when preceded
by start or whitespace, while `.@foo` at the start is linked with the
dot kept outside the anchor and the non-leading `.@bar` stays
unlinked. -/
theorem mention_autolink_positional_rule :
    (∀ (text : List Char) (m : MatchInfo), m ∈ mentionMatches text →
      m.start = 0 ∨ (m.start = 1 ∧ text[0]? = some '.') ∨
        (1 ≤ m.start ∧ ∃ p, text[m.start - 1]? = some p ∧ isJsSpace p = true)) ∧
      linkMentions ("@foo and @bar should be linked").toList =
        ("<a href=\"https://twitter.com/foo\">@foo</a> and <a href=\"https://twitter.com/bar\">@bar</a> should be linked").toList ∧
      linkMentions (".@foo, but not .@bar should be linked").toList =
        (".<a href=\"https://twitter.com/foo\">@foo</a>, but not .@bar should be linked").toList := by
  refine ⟨?_, rfl, rfl⟩
  intro text m hmem
  have hsound := mentionScanAux_sound text text.length 0 none m (by simp)
    (by rw [List.drop_zero]; exact hmem)
  by_cases h0 : m.start = 0
  · exact Or.inl h0
  · rw [if_neg h0] at hsound
    simp only [mentionLookbehind] at hsound
    cases hp : text[m.start - 1]? with
    | none =>
      rw [hp] at hsound
      simp at hsound
      exact absurd hsound h0
    | some p =>
      rw [hp] at hsound
      have h3 : (m.start == 0 || (m.start == 1 && some p == some '.') ||
          isJsSpace p) = true := hsound
      simp only [Bool.or_eq_true, Bool.and_eq_true, beq_iff_eq,
        Option.some.injEq] at h3
      rcases h3 with (h1 | h1) | h1
      · exact absurd h1 h0
      · obtain ⟨hs1, hpd⟩ := h1
        refine Or.inr (Or.inl ⟨hs1, ?_⟩)
        have hdot : text[m.start - 1]? = some '.' := by rw [hp, hpd]
        rw [hs1] at hdot
        simpa using hdot
      · exact Or.inr (Or.inr ⟨by omega, p, rfl, h1⟩)

/-- The second mention example's text, for the C8 witness. -/
def mentionWitnessText : List Char := (".@foo, but not .@bar should be linked").toList

/-- The one mention match of that text: `@foo` at offset 1, behind the
leading dot. -/
def mentionWitnessMatch : MatchInfo := ⟨1, "@foo".toList, "foo".toList⟩

/-- Concrete instance of C8's positional rule at the `.@foo` match. -/
theorem mention_autolink_positional_rule_witness :
    mentionWitnessMatch.start = 0 ∨
      (mentionWitnessMatch.start = 1 ∧ mentionWitnessText[0]? = some '.') ∨
      (1 ≤ mentionWitnessMatch.start ∧ ∃ p,
        mentionWitnessText[mentionWitnessMatch.start - 1]? = some p ∧
        isJsSpace p = true) :=
  mention_autolink_positional_rule.1 mentionWitnessText mentionWitnessMatch
    (List.Mem.head _)
